import Mathlib

/-!
Shallow embedding of the issueify CLI (src/main.go): the issue data model,
the auto-labeler, the issue-store operations (add, list, close), the
export/publish dispatch, and the remote-publish (push) pipeline.

Pure data transformations are translated directly; the effectful parts
(reading the store file, stdout, the GitHub API, the gh helper CLI, the
environment) are made explicit: the loaded store is a `List Issue` argument,
per-issue remote-creation outcomes are an oracle `ok : Issue → Bool`, helper
CLI outputs are `Option String` (`none` = non-zero exit), environment values
are `String` arguments (`""` = unset), and each write of the store file is
returned as data.
-/

/-- Go constant `statusOpen = "open"` (main.go line 44). -/
def statusOpen : String := "open"

/-- Go constant `statusClosed = "closed"` (main.go line 45). -/
def statusClosed : String := "closed"

/-- The `Issue` struct (main.go lines 26-32).  `id` is a Go `int`, modelled
as `Int`; `created_at` is a `time.Time`, modelled as an abstract `Nat`
timestamp (no claim inspects its internal structure). -/
structure Issue where
  id : Int
  title : String
  status : String
  labels : List String
  createdAt : Nat
deriving Repr, DecidableEq

/-! ### Auto-labeler (main.go lines 34-38, 56-63, 130-145) -/

/-- ASCII lower-casing of one character, as Go's `regexp` `(?i)` flag folds
the ASCII letters used in `defaultLabelPatterns`. -/
def asciiLower (c : Char) : Char :=
  if 'A' ≤ c ∧ c ≤ 'Z' then Char.ofNat (c.toNat + 32) else c

/-- `beginsWith pat s` : does the character list `s` start with `pat`? -/
def beginsWith : List Char → List Char → Bool
  | [], _ => true
  | _ :: _, [] => false
  | p :: ps, c :: cs => p == c && beginsWith ps cs

/-- The `LabelPattern` struct (main.go lines 35-38).  Each source pattern is
the anchored case-insensitive regex `(?i)^(A1|...|Ak):`; we keep the
alternatives `A1 ... Ak` as a list of strings. -/
structure LabelPattern where
  alts : List String
  label : String
deriving Repr, DecidableEq

/-- `defaultLabelPatterns` (main.go lines 56-63), in source order. -/
def defaultLabelPatterns : List LabelPattern :=
  [⟨["BUG", "FIX", "BUGFIX"], "bug"⟩,
   ⟨["FEAT", "FEATURE"], "feature"⟩,
   ⟨["DOCS", "DOCUMENTATION"], "documentation"⟩,
   ⟨["REFACTOR"], "refactor"⟩,
   ⟨["TEST", "TESTS"], "testing"⟩,
   ⟨["CHORE"], "chore"⟩]

/-- `lp.Pattern.MatchString(title)` for the anchored pattern
`(?i)^(A1|...|Ak):` : some alternative, followed by `:`, is a
case-insensitive prefix of the title (main.go line 137). -/
def patMatch (lp : LabelPattern) (title : String) : Bool :=
  lp.alts.any fun a =>
    beginsWith (a.toList.map asciiLower ++ [':']) (title.toList.map asciiLower)

/-- Byte-wise (equivalently code-point-wise) string comparison, the order
used by Go's `sort.Strings`; stated via `List Char` so that it evaluates
in the kernel.  `strLE_iff_le` identifies it with Mathlib's `s ≤ t`. -/
def strLE (s t : String) : Bool := decide (s.toList ≤ t.toList)

/-- `s ≤ t` on strings is decidable through the character lists; unlike the
default instance (which goes through `String.ltb` and byte iterators) this
one evaluates inside the kernel. -/
instance (priority := 2000) strDecLE : DecidableRel (α := String) (· ≤ ·) :=
  fun s t => decidable_of_iff (s.toList ≤ t.toList) String.le_iff_toList_le.symm

/-- One insertion step of insertion sort over `strLE`. -/
def insertLE (a : String) : List String → List String
  | [] => [a]
  | b :: l => if strLE a b then a :: b :: l else b :: insertLE a l

/-- `sort.Strings(issue.Labels)` (main.go line 144): sort ascending.  Since
`strLE` is a total order (antisymmetric on the underlying strings), any
correct sort returns this same list. -/
def sortStrings : List String → List String
  | [] => []
  | a :: l => insertLE a (sortStrings l)

/-- The label-list transformation performed by `autoLabel` (main.go lines
130-145): walk the patterns in order, appending each matching pattern's
label unless it is already present (the Go code tracks presence with the
set `labelSet`, seeded with the existing labels — membership in the
accumulator is the same test), then sort. -/
def autoLabelList (title : String) (labels : List String) : List String :=
  sortStrings (defaultLabelPatterns.foldl
    (fun acc lp =>
      if patMatch lp title = true ∧ lp.label ∉ acc then acc ++ [lp.label]
      else acc)
    labels)

/-- The fold body of `autoLabelList`, named for the lemmas below. -/
def labelStep (title : String) (acc : List String) (lp : LabelPattern) : List String :=
  if patMatch lp title = true ∧ lp.label ∉ acc then acc ++ [lp.label] else acc

/-- `autoLabel` (main.go lines 130-145): mutates only the `Labels` field. -/
def autoLabel (i : Issue) : Issue :=
  { i with labels := autoLabelList i.title i.labels }

/-! ### add (main.go lines 149-183) -/

/-- The `maxID` loop of `addIssue` (main.go lines 159-164):
`maxID := 0; for ... if issue.ID > maxID { maxID = issue.ID }`. -/
def goMaxID (issues : List Issue) : Int :=
  issues.foldl (fun maxID issue => if issue.id > maxID then issue.id else maxID) 0

/-- `addIssue` (main.go lines 149-183).  Go fatals on an empty title before
touching the store (`none` = no write); otherwise it builds the new issue
with ID `maxID+1`, status open, empty labels, runs `autoLabel`, appends it
and saves.  The result is the saved store. -/
def addIssue (issues : List Issue) (title : String) (now : Nat) : Option (List Issue) :=
  if title = "" then none
  else
    some (issues ++
      [autoLabel { id := goMaxID issues + 1, title := title, status := statusOpen,
                   labels := [], createdAt := now }])

/-! ### list (main.go lines 185-227) -/

/-- The keep-condition of the `listIssues` loop (main.go lines 196-212):
skip when `!showClosed && status == closed`; skip when `filterLabel != ""`
and no label equals it exactly. -/
def keepIssue (filterLabel : String) (showClosed : Bool) (i : Issue) : Bool :=
  (showClosed || !(i.status == statusClosed)) &&
    (filterLabel == "" || i.labels.contains filterLabel)

/-- `listIssues` (main.go lines 185-227): the sequence of issues printed,
in store order. -/
def listIssues (filterLabel : String) (showClosed : Bool) (issues : List Issue) : List Issue :=
  issues.filter (keepIssue filterLabel showClosed)

/-- Modelled from the spec (§4.4 Query Engine): an issue is retained iff
`includeClosed ∨ status = open` and `labelFilter = ∅ ∨ labelFilter ∈ labels`.
Used only to compare the code's filter against the spec's words. -/
def specKeep (labelFilter : String) (includeClosed : Bool) (i : Issue) : Prop :=
  (includeClosed = true ∨ i.status = statusOpen) ∧
    (labelFilter = "" ∨ labelFilter ∈ i.labels)

instance (labelFilter : String) (includeClosed : Bool) (i : Issue) :
    Decidable (specKeep labelFilter includeClosed i) := by
  unfold specKeep; infer_instance

/-! ### close (main.go lines 229-262) -/

/-- Outcome of the `closeIssue` scan (main.go lines 240-259). -/
inductive CloseResult where
  | notFound
  | alreadyClosed
  | closed (newIssues : List Issue)
deriving Repr, DecidableEq

/-- The `closeIssue` loop (main.go lines 240-251): scan for the first issue
whose ID matches; if it is already closed, return early (no save); else set
its status to closed and stop scanning (`break`).  If no issue matches, the
command fatals (`notFound`); on success the whole updated slice is saved. -/
def closeIssue : List Issue → Int → CloseResult
  | [], _ => CloseResult.notFound
  | i :: rest, id =>
    if i.id = id then
      if i.status = statusClosed then CloseResult.alreadyClosed
      else CloseResult.closed ({ i with status := statusClosed } :: rest)
    else
      match closeIssue rest id with
      | CloseResult.notFound => CloseResult.notFound
      | CloseResult.alreadyClosed => CloseResult.alreadyClosed
      | CloseResult.closed rest2 => CloseResult.closed (i :: rest2)

/-- The store write performed by the `close` command: `saveIssues` is called
only on the found-and-was-open path (main.go line 257). -/
def closeWrite (issues : List Issue) (id : Int) : Option (List Issue) :=
  match closeIssue issues id with
  | CloseResult.closed st => some st
  | _ => none

/-! ### publish (main.go lines 264-290) -/

/-- Outcome of `publishIssues`: which branch of the format switch ran.  The
`markdown` and `json` constructors carry the full loaded collection that is
rendered to stdout; `unsupportedFormat` carries the offending format string
(named in the fatal message, main.go line 288). -/
inductive PublishResult where
  | markdown (issues : List Issue)
  | json (issues : List Issue)
  | unsupportedFormat (format : String)
deriving Repr, DecidableEq

/-- `publishIssues` (main.go lines 264-290).  The switch compares the format
string exactly; no branch calls `saveIssues`, so the store-write component
is `none` on every path. -/
def publishIssues (issues : List Issue) (format : String) :
    PublishResult × Option (List Issue) :=
  if format = "markdown" then (PublishResult.markdown issues, none)
  else if format = "json" then (PublishResult.json issues, none)
  else (PublishResult.unsupportedFormat format, none)

/-! ### push: credential resolution (main.go lines 295-326) -/

/-- How the credential/repository resolution of `pushToGithub` ended. -/
inductive CredResult where
  | tier1 (owner repo token : String)
  | tier2 (owner repo token : String)
  | unavailable
deriving Repr, DecidableEq

/-- `strings.TrimSpace` on the character list (leading and trailing
whitespace removed). -/
def trimChars (l : List Char) : List Char :=
  ((l.dropWhile Char.isWhitespace).reverse.dropWhile Char.isWhitespace).reverse

/-- `strings.Split(s, "/")` on the character list: split at every `/`. -/
def splitSlash : List Char → List Char → List String
  | [], acc => [String.mk acc.reverse]
  | c :: cs, acc =>
    if c = '/' then String.mk acc.reverse :: splitSlash cs []
    else splitSlash cs (c :: acc)

/-- The owner/repo pair derived from the `gh repo view` output (main.go
lines 299-307): on success, trim and split on `/`; only a two-part split
sets the pair, anything else leaves both empty. -/
def ghOwnerRepo (ghRepoOut : Option String) : String × String :=
  match ghRepoOut with
  | some out =>
    match splitSlash (trimChars out.toList) [] with
    | [o, r] => (o, r)
    | _ => ("", "")
  | none => ("", "")

/-- The token derived from the `gh auth token` output (main.go lines
309-313): the trimmed stdout on success, empty otherwise. -/
def ghToken (ghTokenOut : Option String) : String :=
  match ghTokenOut with
  | some out => String.mk (trimChars out.toList)
  | none => ""

/-- The credential-resolution phase of `pushToGithub` (main.go lines
296-326).  `ghRepoOut` / `ghTokenOut` are the stdout of the two `gh`
invocations (`none` = command failed).  Tier 1 is taken iff owner, repo
and token are all non-empty; otherwise the three environment values are
read, and if any is empty the command fatals (`unavailable`). -/
def resolveCreds (ghRepoOut ghTokenOut : Option String)
    (envToken envOwner envRepo : String) : CredResult :=
  if (ghOwnerRepo ghRepoOut).1 ≠ "" ∧ (ghOwnerRepo ghRepoOut).2 ≠ "" ∧
      ghToken ghTokenOut ≠ "" then
    CredResult.tier1 (ghOwnerRepo ghRepoOut).1 (ghOwnerRepo ghRepoOut).2
      (ghToken ghTokenOut)
  else if envToken = "" ∨ envOwner = "" ∨ envRepo = "" then
    CredResult.unavailable
  else
    CredResult.tier2 envOwner envRepo envToken

/-! ### push: batch and clear (main.go lines 333-362) -/

/-- One iteration of the publish loop (main.go lines 340-355): non-open
issues are skipped; for an open issue `Issues.Create` is called (outcome
given by the oracle `ok`); on error the loop logs and `continue`s, on
success the counter is incremented.  The state is (issues attempted so
far, success count). -/
def pushStep (ok : Issue → Bool) (st : List Issue × Nat) (issue : Issue) :
    List Issue × Nat :=
  if issue.status = statusOpen then
    if ok issue then (st.1 ++ [issue], st.2 + 1) else (st.1 ++ [issue], st.2)
  else st

/-- The whole publish loop over the loaded store. -/
def pushBatch (ok : Issue → Bool) (issues : List Issue) : List Issue × Nat :=
  issues.foldl (pushStep ok) ([], 0)

/-- Observable outcome of the batch-and-clear phase of `pushToGithub`. -/
structure PushOutcome where
  attempted : List Issue
  created : Nat
  savedStore : List Issue
deriving Repr, DecidableEq

/-- The batch-and-clear phase of `pushToGithub` (main.go lines 333-362):
run the loop over all loaded issues, then — unconditionally, straight-line
after the loop — save the empty collection (`saveIssues([]Issue{})`,
main.go line 358). -/
def pushToGithub (ok : Issue → Bool) (issues : List Issue) : PushOutcome :=
  { attempted := (pushBatch ok issues).1
    created := (pushBatch ok issues).2
    savedStore := [] }

/-! ### Data-model invariants (spec §3) -/

/-- Per-issue well-formedness from the spec's data model: recognized status,
duplicate-free labels, labels sorted ascending. -/
def IssueWF (i : Issue) : Prop :=
  (i.status = statusOpen ∨ i.status = statusClosed) ∧
    i.labels.Nodup ∧ List.Sorted (· ≤ ·) i.labels

/-- Store invariant from the spec's data model: all ids distinct and every
issue well-formed. -/
def StoreInv (issues : List Issue) : Prop :=
  (issues.map Issue.id).Nodup ∧ ∀ i ∈ issues, IssueWF i

instance (i : Issue) : Decidable (IssueWF i) := by
  unfold IssueWF List.Sorted; infer_instance

instance (issues : List Issue) : Decidable (StoreInv issues) := by
  unfold StoreInv; infer_instance

/-! ### Lemmas about the string order and `sortStrings` -/

theorem strLE_iff_le (s t : String) : strLE s t = true ↔ s ≤ t := by
  unfold strLE
  rw [decide_eq_true_iff]
  exact String.le_iff_toList_le.symm

theorem strLE_of_not (s t : String) (h : strLE s t = false) : strLE t s = true := by
  rw [strLE_iff_le]
  rcases le_total s t with h' | h'
  · rw [← strLE_iff_le] at h'
    simp [h] at h'
  · exact h'

theorem insertLE_perm (a : String) (l : List String) :
    List.Perm (insertLE a l) (a :: l) := by
  induction l with
  | nil => exact List.Perm.refl _
  | cons b l ih =>
    unfold insertLE
    by_cases h : strLE a b = true
    · rw [if_pos h]
    · simp only [h, if_false]
      exact (ih.cons b).trans (List.Perm.swap a b l)

theorem sortStrings_perm (l : List String) : List.Perm (sortStrings l) l := by
  induction l with
  | nil => exact List.Perm.refl _
  | cons a l ih =>
    unfold sortStrings
    exact (insertLE_perm a (sortStrings l)).trans (ih.cons a)

theorem mem_sortStrings {x : String} {l : List String} :
    x ∈ sortStrings l ↔ x ∈ l :=
  (sortStrings_perm l).mem_iff

theorem nodup_sortStrings {l : List String} (h : l.Nodup) :
    (sortStrings l).Nodup :=
  (sortStrings_perm l).nodup_iff.mpr h

theorem insertLE_sorted (a : String) {l : List String}
    (h : List.Sorted (· ≤ ·) l) : List.Sorted (· ≤ ·) (insertLE a l) := by
  induction l with
  | nil => simp [insertLE]
  | cons b l ih =>
    unfold insertLE
    by_cases hab : strLE a b = true
    · rw [if_pos hab]
      rw [List.sorted_cons]
      refine ⟨?_, h⟩
      intro x hx
      rcases List.mem_cons.mp hx with rfl | hx
      · exact (strLE_iff_le a x).mp hab
      · exact le_trans ((strLE_iff_le a b).mp hab) ((List.sorted_cons.mp h).1 x hx)
    · rw [if_neg hab]
      rw [List.sorted_cons]
      refine ⟨?_, ih (List.sorted_cons.mp h).2⟩
      intro x hx
      rcases List.mem_cons.mp ((insertLE_perm a l).mem_iff.mp hx) with rfl | hx
      · exact (strLE_iff_le b x).mp (strLE_of_not x b (Bool.eq_false_iff.mpr hab))
      · exact (List.sorted_cons.mp h).1 x hx

theorem sortStrings_sorted (l : List String) :
    List.Sorted (· ≤ ·) (sortStrings l) := by
  induction l with
  | nil => simp [sortStrings]
  | cons a l ih => exact insertLE_sorted a ih

theorem sortStrings_eq_self {l : List String} (h : List.Sorted (· ≤ ·) l) :
    sortStrings l = l := by
  induction l with
  | nil => rfl
  | cons a l ih =>
    unfold sortStrings
    rw [ih (List.sorted_cons.mp h).2]
    cases l with
    | nil => rfl
    | cons b l' =>
      unfold insertLE
      rw [if_pos ((strLE_iff_le a b).mpr
        ((List.sorted_cons.mp h).1 b (List.mem_cons_self b l')))]

/-! ### Lemmas about the auto-labeler fold -/

theorem autoLabelList_eq (title : String) (labels : List String) :
    autoLabelList title labels =
      sortStrings (defaultLabelPatterns.foldl (labelStep title) labels) := rfl

theorem labelFold_mem (title : String) (pats : List LabelPattern)
    (acc : List String) (l : String) :
    l ∈ pats.foldl (labelStep title) acc ↔
      l ∈ acc ∨ ∃ lp ∈ pats, patMatch lp title = true ∧ lp.label = l := by
  induction pats generalizing acc with
  | nil => simp
  | cons p ps ih =>
    rw [List.foldl_cons]
    by_cases hm : patMatch p title = true ∧ p.label ∉ acc
    · rw [show labelStep title acc p = acc ++ [p.label] from if_pos hm, ih]
      simp only [List.mem_append, List.mem_cons, List.not_mem_nil, or_false]
      constructor
      · rintro ((h | rfl) | ⟨lp, hlp, hmt, rfl⟩)
        · exact Or.inl h
        · exact Or.inr ⟨p, Or.inl rfl, hm.1, rfl⟩
        · exact Or.inr ⟨lp, Or.inr hlp, hmt, rfl⟩
      · rintro (h | ⟨lp, (rfl | hlp), hmt, rfl⟩)
        · exact Or.inl (Or.inl h)
        · exact Or.inl (Or.inr rfl)
        · exact Or.inr ⟨lp, hlp, hmt, rfl⟩
    · rw [show labelStep title acc p = acc from if_neg hm, ih]
      simp only [List.mem_cons]
      constructor
      · rintro (h | ⟨lp, hlp, hmt, rfl⟩)
        · exact Or.inl h
        · exact Or.inr ⟨lp, Or.inr hlp, hmt, rfl⟩
      · rintro (h | ⟨lp, (rfl | hlp), hmt, rfl⟩)
        · exact Or.inl h
        · rcases not_and_or.mp hm with h' | h'
          · exact absurd hmt h'
          · exact Or.inl (not_not.mp h')
        · exact Or.inr ⟨lp, hlp, hmt, rfl⟩

theorem labelFold_nodup (title : String) (pats : List LabelPattern)
    (acc : List String) (h : acc.Nodup) :
    (pats.foldl (labelStep title) acc).Nodup := by
  induction pats generalizing acc with
  | nil => exact h
  | cons p ps ih =>
    rw [List.foldl_cons]
    by_cases hm : patMatch p title = true ∧ p.label ∉ acc
    · rw [show labelStep title acc p = acc ++ [p.label] from if_pos hm]
      refine ih _ ?_
      rw [List.nodup_append]
      exact ⟨h, List.nodup_singleton _, by simpa using hm.2⟩
    · rw [show labelStep title acc p = acc from if_neg hm]
      exact ih _ h

theorem labelFold_noop (title : String) (pats : List LabelPattern)
    (acc : List String)
    (h : ∀ lp ∈ pats, patMatch lp title = true → lp.label ∈ acc) :
    pats.foldl (labelStep title) acc = acc := by
  induction pats with
  | nil => rfl
  | cons p ps ih =>
    rw [List.foldl_cons,
      show labelStep title acc p = acc from
        if_neg (by
          rintro ⟨hmt, hnm⟩
          exact hnm (h p (List.mem_cons_self p ps) hmt))]
    exact ih fun lp hlp => h lp (List.mem_cons_of_mem p hlp)

theorem autoLabelList_mem (title : String) (labels : List String) (l : String) :
    l ∈ autoLabelList title labels ↔
      l ∈ labels ∨
        ∃ lp ∈ defaultLabelPatterns, patMatch lp title = true ∧ lp.label = l := by
  rw [autoLabelList_eq, mem_sortStrings, labelFold_mem]

theorem autoLabelList_idem (title : String) (labels : List String) :
    autoLabelList title (autoLabelList title labels) =
      autoLabelList title labels := by
  rw [autoLabelList_eq title (autoLabelList title labels)]
  rw [labelFold_noop]
  · exact sortStrings_eq_self (by rw [autoLabelList_eq]; exact sortStrings_sorted _)
  · intro lp hlp hmt
    rw [autoLabelList_mem]
    exact Or.inr ⟨lp, hlp, hmt, rfl⟩

/-! ### Lemmas about the maxID loop -/

theorem maxStep_left_le (m : Int) (i : Issue) :
    m ≤ (if i.id > m then i.id else m) := by
  split <;> omega

theorem maxStep_right_le (m : Int) (i : Issue) :
    i.id ≤ (if i.id > m then i.id else m) := by
  split <;> omega

theorem goMaxFold_acc_le (issues : List Issue) (acc : Int) :
    acc ≤ issues.foldl (fun m issue => if issue.id > m then issue.id else m) acc := by
  induction issues generalizing acc with
  | nil => exact le_refl _
  | cons j rest ih =>
    rw [List.foldl_cons]
    exact le_trans (maxStep_left_le acc j) (ih _)

theorem goMaxFold_bound (issues : List Issue) (acc : Int) :
    ∀ i ∈ issues,
      i.id ≤ issues.foldl (fun m issue => if issue.id > m then issue.id else m) acc := by
  induction issues generalizing acc with
  | nil => intro i hi; cases hi
  | cons j rest ih =>
    intro i hi
    rw [List.foldl_cons]
    rcases List.mem_cons.mp hi with rfl | hi'
    · exact le_trans (maxStep_right_le acc i) (goMaxFold_acc_le rest _)
    · exact ih _ i hi'

theorem goMaxFold_cases (issues : List Issue) (acc : Int) :
    issues.foldl (fun m issue => if issue.id > m then issue.id else m) acc = acc ∨
      ∃ i ∈ issues,
        issues.foldl (fun m issue => if issue.id > m then issue.id else m) acc = i.id := by
  induction issues generalizing acc with
  | nil => exact Or.inl rfl
  | cons j rest ih =>
    rw [List.foldl_cons]
    rcases ih (if j.id > acc then j.id else acc) with h | ⟨i, hi, h⟩
    · rw [h]
      split
      · exact Or.inr ⟨j, List.mem_cons_self j rest, rfl⟩
      · exact Or.inl rfl
    · exact Or.inr ⟨i, List.mem_cons_of_mem j hi, h⟩

theorem goMaxID_bound (issues : List Issue) :
    ∀ i ∈ issues, i.id ≤ goMaxID issues :=
  goMaxFold_bound issues 0

/-- C2: adding an issue assigns ID `max(existing ids) + 1` (1 on an empty
store); the new ID is strictly above every existing ID, so IDs are never
reused. -/
theorem addIssue_id_spec (issues : List Issue) (title : String) (now : Nat)
    (htitle : title ≠ "") (hpos : ∀ i ∈ issues, 1 ≤ i.id) :
    ∃ newIssue : Issue,
      addIssue issues title now = some (issues ++ [newIssue]) ∧
      (issues = [] → newIssue.id = 1) ∧
      (∀ i ∈ issues, i.id < newIssue.id) ∧
      (issues ≠ [] → ∃ j ∈ issues, newIssue.id = j.id + 1) := by
  refine ⟨autoLabel ⟨goMaxID issues + 1, title, statusOpen, [], now⟩, ?_, ?_, ?_, ?_⟩
  · unfold addIssue
    rw [if_neg htitle]
  · rintro rfl
    rfl
  · intro i hi
    have h1 : i.id ≤ goMaxID issues := goMaxID_bound issues i hi
    show i.id < goMaxID issues + 1
    omega
  · intro hne
    rcases goMaxFold_cases issues 0 with h0 | ⟨j, hj, heq⟩
    · obtain ⟨j, hj⟩ := List.exists_mem_of_ne_nil issues hne
      have h1 : j.id ≤ goMaxID issues := goMaxID_bound issues j hj
      have h2 : 1 ≤ j.id := hpos j hj
      have h3 : goMaxID issues = 0 := h0
      omega
    · refine ⟨j, hj, ?_⟩
      show goMaxID issues + 1 = j.id + 1
      rw [show goMaxID issues = j.id from heq]

/-- Witness for C2 at a concrete two-issue store. -/
theorem addIssue_id_spec_witness :
    ∃ newIssue : Issue,
      addIssue ([⟨1, "a", "open", [], 0⟩, ⟨3, "b", "closed", [], 0⟩] : List Issue) "t" 7 =
        some (([⟨1, "a", "open", [], 0⟩, ⟨3, "b", "closed", [], 0⟩] : List Issue) ++ [newIssue]) ∧
      (([⟨1, "a", "open", [], 0⟩, ⟨3, "b", "closed", [], 0⟩] : List Issue) = [] →
        newIssue.id = 1) ∧
      (∀ i ∈ ([⟨1, "a", "open", [], 0⟩, ⟨3, "b", "closed", [], 0⟩] : List Issue),
        i.id < newIssue.id) ∧
      (([⟨1, "a", "open", [], 0⟩, ⟨3, "b", "closed", [], 0⟩] : List Issue) ≠ [] →
        ∃ j ∈ ([⟨1, "a", "open", [], 0⟩, ⟨3, "b", "closed", [], 0⟩] : List Issue),
          newIssue.id = j.id + 1) :=
  addIssue_id_spec _ _ 7 (by decide) (by decide)

/-! ### The query engine against the spec predicate -/

theorem keep_eq_specKeep (f : String) (c : Bool) (i : Issue)
    (hstat : i.status = statusOpen ∨ i.status = statusClosed) :
    keepIssue f c i = decide (specKeep f c i) := by
  rw [Bool.eq_iff_iff, decide_eq_true_iff]
  simp only [keepIssue, specKeep, Bool.and_eq_true, Bool.or_eq_true,
    Bool.not_eq_true', beq_iff_eq, beq_eq_false_iff_ne, ne_eq,
    List.contains_eq_any_beq, List.any_eq_true]
  constructor
  · rintro ⟨h1, h2⟩
    refine ⟨?_, ?_⟩
    · rcases h1 with h1 | h1
      · exact Or.inl h1
      · rcases hstat with h | h
        · exact Or.inr h
        · exact absurd h h1
    · rcases h2 with h2 | ⟨x, hx, hbeq⟩
      · exact Or.inl h2
      · exact Or.inr (by rw [hbeq]; exact hx)
  · rintro ⟨h1, h2⟩
    refine ⟨?_, ?_⟩
    · rcases h1 with h1 | h1
      · exact Or.inl h1
      · refine Or.inr ?_
        rw [h1]
        decide
    · rcases h2 with h2 | h2
      · exact Or.inl h2
      · exact Or.inr ⟨f, h2, rfl⟩

/-- C4: listing retains exactly the issues satisfying
`(includeClosed ∨ status = open) ∧ (labelFilter = ∅ ∨ labelFilter ∈ labels)`,
in store order. -/
theorem listIssues_filter_spec (f : String) (c : Bool) (issues : List Issue)
    (hstat : ∀ i ∈ issues, i.status = statusOpen ∨ i.status = statusClosed) :
    listIssues f c issues = issues.filter (fun i => decide (specKeep f c i)) := by
  unfold listIssues
  exact List.filter_congr fun i hi => keep_eq_specKeep f c i (hstat i hi)

/-- Witness for C4 at a concrete store and filter. -/
theorem listIssues_filter_spec_witness :
    listIssues "bug" false
        [⟨1, "a", "open", ["bug"], 0⟩, ⟨2, "b", "closed", ["bug"], 0⟩, ⟨3, "c", "open", [], 0⟩] =
      List.filter (fun i => decide (specKeep "bug" false i))
        [⟨1, "a", "open", ["bug"], 0⟩, ⟨2, "b", "closed", ["bug"], 0⟩, ⟨3, "c", "open", [], 0⟩] :=
  listIssues_filter_spec _ _ _ (by decide)

/-! ### The auto-labeler claims -/

/-- C3: the auto-labeler tests each rule case-insensitively against the
start of the title (alternative followed by `:`, per `defaultLabelPatterns`:
BUG/FIX/BUGFIX → bug, FEAT/FEATURE → feature, DOCS/DOCUMENTATION →
documentation, REFACTOR → refactor, TEST/TESTS → testing, CHORE → chore);
every matching rule's label is added to the existing label set with
deduplication, the result is sorted lexicographically ascending, and the
title is unchanged. -/
theorem autoLabel_spec (i : Issue) :
    (autoLabel i).title = i.title ∧
    List.Sorted (· ≤ ·) (autoLabel i).labels ∧
    (∀ l : String, l ∈ (autoLabel i).labels ↔
      l ∈ i.labels ∨
        ∃ lp ∈ defaultLabelPatterns, patMatch lp i.title = true ∧ lp.label = l) ∧
    (i.labels.Nodup → (autoLabel i).labels.Nodup) := by
  refine ⟨rfl, ?_, ?_, ?_⟩
  · show List.Sorted (· ≤ ·) (autoLabelList i.title i.labels)
    rw [autoLabelList_eq]
    exact sortStrings_sorted _
  · exact fun l => autoLabelList_mem i.title i.labels l
  · intro h
    show (autoLabelList i.title i.labels).Nodup
    rw [autoLabelList_eq]
    exact nodup_sortStrings (labelFold_nodup i.title _ _ h)

/-- Witness for C3 at a concrete issue with a BUG-prefixed title. -/
theorem autoLabel_spec_witness :
    (autoLabel ⟨1, "BUG: x", "open", ["zeta"], 0⟩).labels = ["bug", "zeta"] ∧
    (autoLabel ⟨1, "BUG: x", "open", ["zeta"], 0⟩).labels.Nodup :=
  ⟨by decide, (autoLabel_spec ⟨1, "BUG: x", "open", ["zeta"], 0⟩).2.2.2 (by decide)⟩

/-- C6: the auto-labeler is idempotent — running it twice on the same issue
yields the same issue (and in particular the same sorted label set) as
running it once. -/
theorem autoLabel_idem (i : Issue) : autoLabel (autoLabel i) = autoLabel i := by
  cases i
  simp only [autoLabel]
  rw [autoLabelList_idem]

/-! ### The close-operation lemmas -/

theorem closeIssue_not_found (issues : List Issue) (n : Int)
    (h : ∀ i ∈ issues, i.id ≠ n) : closeIssue issues n = CloseResult.notFound := by
  induction issues with
  | nil => rfl
  | cons j rest ih =>
    simp only [closeIssue]
    rw [if_neg (h j (List.mem_cons_self j rest))]
    rw [ih fun i hi => h i (List.mem_cons_of_mem j hi)]

theorem map_close_noop (l : List Issue) (n : Int) (h : ∀ k ∈ l, k.id ≠ n) :
    (l.map fun j => if j.id = n then { j with status := statusClosed } else j) = l := by
  induction l with
  | nil => rfl
  | cons k rest ih =>
    rw [List.map_cons, if_neg (h k (List.mem_cons_self k rest)),
      ih fun k' hk' => h k' (List.mem_cons_of_mem k hk')]

theorem closeIssue_eq_map (issues : List Issue) (n : Int) (i : Issue)
    (hnd : (issues.map Issue.id).Nodup) (hi : i ∈ issues) (hid : i.id = n)
    (hopen : i.status ≠ statusClosed) :
    closeIssue issues n =
      CloseResult.closed
        (issues.map fun j => if j.id = n then { j with status := statusClosed } else j) := by
  induction issues with
  | nil => cases hi
  | cons j rest ih =>
    rw [List.map_cons] at hnd
    rcases List.mem_cons.mp hi with rfl | hi'
    · simp only [closeIssue]
      rw [if_pos hid, if_neg hopen, List.map_cons, if_pos hid]
      rw [map_close_noop rest n]
      intro k hk hkid
      exact (List.nodup_cons.mp hnd).1
        (by rw [show i.id = k.id from hid.trans hkid.symm]; exact List.mem_map_of_mem Issue.id hk)
    · have hj : j.id ≠ n := by
        intro hcontra
        exact (List.nodup_cons.mp hnd).1
          (by rw [hcontra, ← hid]; exact List.mem_map_of_mem Issue.id hi')
      simp only [closeIssue]
      rw [if_neg hj, ih (List.nodup_cons.mp hnd).2 hi']
      rw [List.map_cons, if_neg hj]

theorem closeIssue_already (issues : List Issue) (n : Int) (i : Issue)
    (hnd : (issues.map Issue.id).Nodup) (hi : i ∈ issues) (hid : i.id = n)
    (hclosed : i.status = statusClosed) :
    closeIssue issues n = CloseResult.alreadyClosed := by
  induction issues with
  | nil => cases hi
  | cons j rest ih =>
    rw [List.map_cons] at hnd
    rcases List.mem_cons.mp hi with rfl | hi'
    · simp only [closeIssue]
      rw [if_pos hid, if_pos hclosed]
    · have hj : j.id ≠ n := by
        intro hcontra
        exact (List.nodup_cons.mp hnd).1
          (by rw [hcontra, ← hid]; exact List.mem_map_of_mem Issue.id hi')
      simp only [closeIssue]
      rw [if_neg hj, ih (List.nodup_cons.mp hnd).2 hi']

/-- C8: closing an id absent from the store fails with not-found and
performs no store write. -/
theorem closeIssue_notFound_spec (issues : List Issue) (n : Int)
    (h : ∀ i ∈ issues, i.id ≠ n) :
    closeIssue issues n = CloseResult.notFound ∧ closeWrite issues n = none := by
  have h1 := closeIssue_not_found issues n h
  exact ⟨h1, by unfold closeWrite; rw [h1]⟩

/-- Witness for C8: closing id 99 on a store holding only id 1. -/
theorem closeIssue_notFound_spec_witness :
    closeIssue ([⟨1, "a", "open", [], 0⟩] : List Issue) 99 = CloseResult.notFound ∧
    closeWrite ([⟨1, "a", "open", [], 0⟩] : List Issue) 99 = none :=
  closeIssue_notFound_spec _ 99 (by decide)

/-- C10: when the store contains the requested id, closing an open issue
flips only that issue's status to closed (all other fields, all other
issues and all positions unchanged — the saved store is the pointwise map
that rewrites just the matching issue's status) and saves; closing an
already-closed issue performs no write at all. -/
theorem closeIssue_frame_spec (issues : List Issue) (n : Int) (i : Issue)
    (hnd : (issues.map Issue.id).Nodup) (hi : i ∈ issues) (hid : i.id = n) :
    (i.status = statusOpen →
      closeIssue issues n =
        CloseResult.closed
          (issues.map fun j => if j.id = n then { j with status := statusClosed } else j) ∧
      closeWrite issues n =
        some
          (issues.map fun j => if j.id = n then { j with status := statusClosed } else j)) ∧
    (i.status = statusClosed →
      closeIssue issues n = CloseResult.alreadyClosed ∧ closeWrite issues n = none) := by
  constructor
  · intro ho
    have h1 := closeIssue_eq_map issues n i hnd hi hid
      (by rw [ho]; decide)
    exact ⟨h1, by unfold closeWrite; rw [h1]⟩
  · intro hc
    have h1 := closeIssue_already issues n i hnd hi hid hc
    exact ⟨h1, by unfold closeWrite; rw [h1]⟩

/-- Witness for C10: one application per branch (open issue id 1,
already-closed issue id 2) on a concrete two-issue store. -/
theorem closeIssue_frame_spec_witness :
    (closeIssue ([⟨1, "a", "open", [], 0⟩, ⟨2, "b", "closed", [], 0⟩] : List Issue) 1 =
      CloseResult.closed
        (([⟨1, "a", "open", [], 0⟩, ⟨2, "b", "closed", [], 0⟩] : List Issue).map
          fun j => if j.id = 1 then { j with status := statusClosed } else j)) ∧
    (closeIssue ([⟨1, "a", "open", [], 0⟩, ⟨2, "b", "closed", [], 0⟩] : List Issue) 2 =
      CloseResult.alreadyClosed) :=
  ⟨((closeIssue_frame_spec _ 1 ⟨1, "a", "open", [], 0⟩ (by decide) (by decide) (by decide)).1
      (by decide)).1,
   ((closeIssue_frame_spec _ 2 ⟨2, "b", "closed", [], 0⟩ (by decide) (by decide) (by decide)).2
      (by decide)).1⟩

/-! ### The export/publish dispatch -/

/-- C9: any format other than `markdown` or `json` makes `publish` fail
with the unsupported-format error naming the invalid value, and the store
file is untouched (no branch of the function writes the store). -/
theorem publishIssues_unsupported (issues : List Issue) (format : String)
    (h1 : format ≠ "markdown") (h2 : format ≠ "json") :
    publishIssues issues format = (PublishResult.unsupportedFormat format, none) := by
  unfold publishIssues
  rw [if_neg h1, if_neg h2]

/-- Witness for C9: `publish xml` on a one-issue store. -/
theorem publishIssues_unsupported_witness :
    publishIssues ([⟨1, "a", "open", [], 0⟩] : List Issue) "xml" =
      (PublishResult.unsupportedFormat "xml", none) :=
  publishIssues_unsupported _ "xml" (by decide) (by decide)

/-! ### Credential resolution -/

/-- C7: tier 1 (the gh helper) is accepted only when owner, repo and token
all resolve to non-empty strings; whenever tier 1 is not accepted, the
three environment values decide the outcome — any of them empty is the
fatal credentials-unavailable error (no retry), otherwise tier 2 is used
with exactly those values. -/
theorem resolveCreds_spec (ghRepoOut ghTokenOut : Option String)
    (envToken envOwner envRepo : String) :
    (∀ o r t, resolveCreds ghRepoOut ghTokenOut envToken envOwner envRepo =
        CredResult.tier1 o r t → o ≠ "" ∧ r ≠ "" ∧ t ≠ "") ∧
    ((∀ o r t, resolveCreds ghRepoOut ghTokenOut envToken envOwner envRepo ≠
        CredResult.tier1 o r t) →
      (envToken = "" ∨ envOwner = "" ∨ envRepo = "") →
      resolveCreds ghRepoOut ghTokenOut envToken envOwner envRepo =
        CredResult.unavailable) ∧
    ((∀ o r t, resolveCreds ghRepoOut ghTokenOut envToken envOwner envRepo ≠
        CredResult.tier1 o r t) →
      envToken ≠ "" → envOwner ≠ "" → envRepo ≠ "" →
      resolveCreds ghRepoOut ghTokenOut envToken envOwner envRepo =
        CredResult.tier2 envOwner envRepo envToken) := by
  by_cases hc : (ghOwnerRepo ghRepoOut).1 ≠ "" ∧ (ghOwnerRepo ghRepoOut).2 ≠ "" ∧
      ghToken ghTokenOut ≠ ""
  · refine ⟨?_, ?_, ?_⟩
    · intro o r t h
      rw [resolveCreds, if_pos hc] at h
      injection h with ho hr ht
      exact ⟨ho ▸ hc.1, hr ▸ hc.2.1, ht ▸ hc.2.2⟩
    · intro hnot _
      exact absurd (by rw [resolveCreds, if_pos hc]) (hnot _ _ _)
    · intro hnot _ _ _
      exact absurd (by rw [resolveCreds, if_pos hc]) (hnot _ _ _)
  · refine ⟨?_, ?_, ?_⟩
    · intro o r t h
      rw [resolveCreds, if_neg hc] at h
      by_cases henv : envToken = "" ∨ envOwner = "" ∨ envRepo = ""
      · rw [if_pos henv] at h
        cases h
      · rw [if_neg henv] at h
        cases h
    · intro _ henv
      rw [resolveCreds, if_neg hc, if_pos henv]
    · intro _ ht ho hr
      rw [resolveCreds, if_neg hc,
        if_neg (by rintro (h | h | h) <;> [exact ht h; exact ho h; exact hr h])]

/-- Witness for C7: both gh calls fail and the token env value is unset —
the fatal credentials-unavailable outcome. -/
theorem resolveCreds_spec_witness :
    resolveCreds none none "" "x" "y" = CredResult.unavailable :=
  (resolveCreds_spec none none "" "x" "y").2.1
    (fun o r t h => by
      rw [resolveCreds, if_neg (by decide), if_pos (Or.inl rfl)] at h
      cases h)
    (Or.inl rfl)

/-! ### The push batch -/

theorem pushFold_attempted (ok : Issue → Bool) (issues : List Issue)
    (acc : List Issue) (m : Nat) :
    (issues.foldl (pushStep ok) (acc, m)).1 =
      acc ++ issues.filter (fun i => decide (i.status = statusOpen)) := by
  induction issues generalizing acc m with
  | nil => simp
  | cons j rest ih =>
    rw [List.foldl_cons]
    by_cases hs : j.status = statusOpen
    · by_cases ho : ok j = true
      · rw [show pushStep ok (acc, m) j = (acc ++ [j], m + 1) from by
          unfold pushStep; rw [if_pos hs, if_pos ho]]
        rw [ih]
        simp [List.filter_cons, hs]
      · rw [show pushStep ok (acc, m) j = (acc ++ [j], m) from by
          unfold pushStep; rw [if_pos hs, if_neg (by simpa using ho)]]
        rw [ih]
        simp [List.filter_cons, hs]
    · rw [show pushStep ok (acc, m) j = (acc, m) from by
        unfold pushStep; rw [if_neg hs]]
      rw [ih]
      simp [List.filter_cons, hs]

/-- C1: in the push batch a remote creation is attempted for exactly the
open issues, in store order, independently of the per-issue outcomes (a
failure never aborts the loop), and afterwards the store is saved as the
empty collection unconditionally. -/
theorem pushToGithub_batch_spec (ok : Issue → Bool) (issues : List Issue) :
    (pushToGithub ok issues).attempted =
      issues.filter (fun i => decide (i.status = statusOpen)) ∧
    (pushToGithub ok issues).savedStore = [] := by
  constructor
  · show (pushBatch ok issues).1 = _
    unfold pushBatch
    simpa using pushFold_attempted ok issues [] 0
  · rfl

/-! ### Invariant preservation -/

theorem closeIssue_ids (n : Int) (issues l2 : List Issue)
    (h : closeIssue issues n = CloseResult.closed l2) :
    l2.map Issue.id = issues.map Issue.id := by
  induction issues generalizing l2 with
  | nil => cases h
  | cons j rest ih =>
    by_cases hj : j.id = n
    · simp only [closeIssue] at h
      rw [if_pos hj] at h
      by_cases hs : j.status = statusClosed
      · rw [if_pos hs] at h; cases h
      · rw [if_neg hs] at h
        injection h with h2
        subst h2
        rfl
    · simp only [closeIssue] at h
      rw [if_neg hj] at h
      cases heq : closeIssue rest n with
      | notFound => rw [heq] at h; cases h
      | alreadyClosed => rw [heq] at h; cases h
      | closed rest2 =>
        rw [heq] at h
        injection h with h2
        subst h2
        rw [List.map_cons, List.map_cons, ih rest2 heq]

theorem closeIssue_wf (n : Int) (issues l2 : List Issue)
    (hwf : ∀ i ∈ issues, IssueWF i)
    (h : closeIssue issues n = CloseResult.closed l2) :
    ∀ i ∈ l2, IssueWF i := by
  induction issues generalizing l2 with
  | nil => cases h
  | cons j rest ih =>
    by_cases hj : j.id = n
    · simp only [closeIssue] at h
      rw [if_pos hj] at h
      by_cases hs : j.status = statusClosed
      · rw [if_pos hs] at h; cases h
      · rw [if_neg hs] at h
        injection h with h2
        subst h2
        intro i hi
        rcases List.mem_cons.mp hi with rfl | hi'
        · have hwj := hwf j (List.mem_cons_self j rest)
          exact ⟨Or.inr rfl, hwj.2.1, hwj.2.2⟩
        · exact hwf i (List.mem_cons_of_mem j hi')
    · simp only [closeIssue] at h
      rw [if_neg hj] at h
      cases heq : closeIssue rest n with
      | notFound => rw [heq] at h; cases h
      | alreadyClosed => rw [heq] at h; cases h
      | closed rest2 =>
        rw [heq] at h
        injection h with h2
        subst h2
        intro i hi
        rcases List.mem_cons.mp hi with rfl | hi'
        · exact hwf i (List.mem_cons_self i rest)
        · exact ih rest2 (fun k hk => hwf k (List.mem_cons_of_mem j hk)) heq i hi'

theorem addIssue_inv (issues st : List Issue) (title : String) (now : Nat)
    (hinv : StoreInv issues) (h : addIssue issues title now = some st) :
    StoreInv st := by
  unfold addIssue at h
  by_cases ht : title = ""
  · rw [if_pos ht] at h; cases h
  · rw [if_neg ht] at h
    injection h with h2
    subst h2
    constructor
    · rw [List.map_append, List.map_singleton]
      rw [List.nodup_append]
      refine ⟨hinv.1, List.nodup_singleton _, ?_⟩
      intro x hx hx1
      rw [List.mem_singleton] at hx1
      obtain ⟨i, hi, hid⟩ := List.mem_map.mp hx
      have hb : i.id ≤ goMaxID issues := goMaxID_bound issues i hi
      have hxx : x = goMaxID issues + 1 := hx1
      rw [hxx] at hid
      omega
    · intro i hi
      rcases List.mem_append.mp hi with hi' | hi'
      · exact hinv.2 i hi'
      · rw [List.mem_singleton] at hi'
        subst hi'
        refine ⟨Or.inl rfl, ?_, ?_⟩
        · show (autoLabelList title []).Nodup
          rw [autoLabelList_eq]
          exact nodup_sortStrings (labelFold_nodup title _ _ List.nodup_nil)
        · show List.Sorted (· ≤ ·) (autoLabelList title [])
          rw [autoLabelList_eq]
          exact sortStrings_sorted _

/-- C5: every store write of the three persisting operations preserves the
data-model invariants (distinct ids, recognized statuses, duplicate-free
sorted label sets): the store saved by add, the store saved by close, and
the empty store saved by push all satisfy them whenever the loaded store
did. -/
theorem storeInv_preserved (issues st₁ st₂ : List Issue) (title : String)
    (now : Nat) (n : Int) (ok : Issue → Bool)
    (hinv : StoreInv issues)
    (hadd : addIssue issues title now = some st₁)
    (hclose : closeIssue issues n = CloseResult.closed st₂) :
    StoreInv st₁ ∧ StoreInv st₂ ∧ StoreInv (pushToGithub ok issues).savedStore := by
  refine ⟨addIssue_inv issues st₁ title now hinv hadd, ?_, ?_⟩
  · constructor
    · rw [closeIssue_ids n issues st₂ hclose]
      exact hinv.1
    · exact closeIssue_wf n issues st₂ hinv.2 hclose
  · exact ⟨List.nodup_nil, fun i hi => absurd hi (List.not_mem_nil i)⟩

/-- Witness for C5: a concrete well-formed store on which add writes, close
writes, and push clears. -/
theorem storeInv_preserved_witness :
    StoreInv ([⟨1, "a", "open", ["bug"], 0⟩, ⟨2, "t", "open", [], 5⟩] : List Issue) ∧
    StoreInv ([⟨1, "a", "closed", ["bug"], 0⟩] : List Issue) ∧
    StoreInv (pushToGithub (fun _ => true) ([⟨1, "a", "open", ["bug"], 0⟩] : List Issue)).savedStore :=
  storeInv_preserved [⟨1, "a", "open", ["bug"], 0⟩] _ _ "t" 5 1 (fun _ => true)
    (by decide) (by decide) (by decide)
